import Mathlib

/-!
Verification development for the GitHub activity harvester (`gather.py`).

The definitions below are a shallow embedding of the harvesting engine:

* timestamps are modelled as `Int` (the code compares `datetime` values,
  which form a linear order; only comparisons matter to the engine);
* formatted date strings (`strftime` output, stored in records and used
  as the sort key during finalization) are carried as `String` fields of
  the input items — the formatting itself is external pure I/O;
* Python dicts keyed by strings are modelled as insertion-ordered
  association lists (`List (String × β)`), matching Python's
  insertion-order semantics for iteration and key listing;
* the remote API is modelled by data supplied to the functions: a list
  of page results for each paginated feed, and a function
  `fetchDiff : String → DiffStat` giving the per-commit diff statistics
  returned by a successful `get_diff` call (keyed by commit sha; the
  API url of a commit determines its sha).
-/

/-- Python dict lookup on an insertion-ordered association list. -/
def alookup {β : Type} : List (String × β) → String → Option β
  | [], _ => none
  | (k, v) :: rest, a => if k = a then some v else alookup rest a

/-- Replace the value at an existing key, keeping its position
(Python `m[k] = f(m[k])` on a present key). -/
def amodify {β : Type} : List (String × β) → String → (β → β) → List (String × β)
  | [], _, _ => []
  | (k, v) :: rest, a, f => if k = a then (k, f v) :: rest else (k, v) :: amodify rest a f

/-- Python `m[k] = v`: overwrite in place when the key exists, else append. -/
def astore {β : Type} (m : List (String × β)) (k : String) (v : β) : List (String × β) :=
  match alookup m k with
  | some _ => amodify m k (fun _ => v)
  | none => m ++ [(k, v)]

/-- Update the element at position `i` of a list, when it exists
(Python `l[i] = f(l[i])` on the milestone list). -/
def modifyIdx {σ : Type} : List σ → Nat → (σ → σ) → List σ
  | [], _, _ => []
  | a :: as, 0, f => f a :: as
  | a :: as, n + 1, f => a :: modifyIdx as n f

/-- Worker of `dedupKeepFirst`: walk the list, skipping keys already seen. -/
def dedupKeepFirstGo : List String → List String → List String
  | [], _ => []
  | s :: rest, seen =>
    if s ∈ seen then dedupKeepFirstGo rest seen
    else s :: dedupKeepFirstGo rest (seen ++ [s])

/-- Key list of a Python dict comprehension `{c['sha']: c['url'] for c in l}`:
one key per distinct sha, in first-occurrence order (later duplicates only
overwrite the value). -/
def dedupKeepFirst (l : List String) : List String :=
  dedupKeepFirstGo l []

/-- Diff statistics returned by `get_diff` (`gather.py` lines 30-32):
the set of changed filenames and the total changed line count.
`filenames` models a Python set: it is deduplicated by construction. -/
structure DiffStat where
  filenames : List String
  total : Int
deriving DecidableEq, Repr

/-- A commit record stored in a milestone bucket (`gather.py` lines 334-339).
`diffFiles`/`diffTotal` flatten the stored `{'files': …, 'total': …}` dict. -/
structure CommitEntry where
  message : String
  date : String
  link : String
  diffFiles : Nat
  diffTotal : Int
deriving DecidableEq, Repr

/-- A comment stored on an issue/PR record (`gather.py` lines 411-415). -/
structure CommentEntry where
  author : String
  author_full_name : String
  body : String
deriving DecidableEq, Repr

/-- An issue or PR record stored in a milestone bucket (`gather.py`
lines 465-478); `diff` is present exactly for pull requests. -/
structure IssueEntry where
  title : String
  desc : String
  date : String
  labels : List String
  assignees : List String
  assignee_full_names : List String
  link : String
  state : String
  comments : List CommentEntry
  diff : Option (Nat × Int)
deriving DecidableEq, Repr

/-- Per-author bucket (`gather.py` lines 328-333): a running `count`,
the record list, and the author's resolved full name. -/
structure AuthorBucket (α : Type) where
  count : Nat
  list : List α
  full_name : String
deriving DecidableEq, Repr

/-- One milestone's slot of the snapshot (`gather.py` line 226):
`{'date': label, 'commits': {}, 'issues': {}, 'prs': {}}`. -/
structure MsBucket where
  date : String
  commits : List (String × AuthorBucket CommitEntry)
  issues : List (String × AuthorBucket IssueEntry)
  prs : List (String × AuthorBucket IssueEntry)
deriving DecidableEq, Repr

/-- A milestone: cutoff timestamp (exclusive upper bound) plus its label
(`strftime` of the milestone date, stored as the bucket's `date`). -/
structure Milestone where
  cutoff : Int
  label : String
deriving DecidableEq, Repr

/-- One item of the paginated commit feed, with the fields `gather_commits`
reads (`gather.py` lines 291-317). `date` is the parsed author timestamp,
`dateStr` the `strftime` string stored in records. `coauthors` carries the
result of `coauthor_pattern.findall` on the message (the regular-expression
match itself is external string processing). -/
structure CommitItem where
  sha : String
  url : String
  html_url : String
  date : Int
  dateStr : String
  authorLogin : Option String
  commitAuthorName : Option String
  message : String
  coauthors : List String
deriving DecidableEq, Repr

/-- One item of the paginated issue feed (`gather.py` lines 382-429):
`is_pr` is `'pull_request' in issue`; `commentsData` carries the comment
listing the API returns for this item; `prCommitShas` the shas of the
PR's constituent commits (used only when `is_pr`). -/
structure IssueItem where
  number : Nat
  is_pr : Bool
  created : Int
  dateStr : String
  title : String
  body : String
  labels : List String
  assignees : List String
  author : String
  commentsCount : Nat
  commentsData : List (String × String)
  html_url : String
  state : String
  prCommitShas : List String
deriving DecidableEq, Repr

/-- Result of requesting one page of a paginated feed: the request may
fail (`requests.exceptions.RequestException`, caught at `gather.py`
lines 270/372) or return a list of items. -/
inductive PageResult (ι : Type) where
  | fetchError
  | content (items : List ι)
deriving DecidableEq, Repr

/-- Mutable per-repository harvesting state: the milestone snapshot
`ms_l`, the diff cache `prev_diffs`, and (ghost instrumentation) the
chronological trace of remote `get_diff` calls, recorded by sha. -/
structure HarvestState where
  msl : List MsBucket
  cache : List (String × DiffStat)
  calls : List String
deriving DecidableEq, Repr

/-- Outcome of the repository metadata existence check
(`gather.py` lines 231-235): 404, success, or any other error status
(for which `raise_for_status` raises). -/
inductive MetaResult where
  | notFound
  | ok
  | httpError
deriving DecidableEq, Repr

/-- `get_full_name` (`gather.py` lines 110-112). -/
def get_full_name (username : String) (mappings : List (String × String)) : String :=
  (alookup mappings username).getD username

/-- Primary-author resolution (`gather.py` lines 303-308):
platform login if present, else raw committer name, else `"unknown"`. -/
def resolveAuthor (c : CommitItem) : String :=
  match c.authorLogin with
  | some l => l
  | none =>
    match c.commitAuthorName with
    | some n => n
    | none => "unknown"

/-- Identity list credited for one commit (`gather.py` line 324):
`coauthors + [author_t]`, no deduplication. -/
def commitNames (c : CommitItem) : List String :=
  c.coauthors ++ [resolveAuthor c]

/-- Record one item under one author (`gather.py` lines 328-340 / 453-481):
create the bucket with `count = 0` and an empty list if absent, then
append the record and increment the count. -/
def bucketAdd {α : Type} (m : List (String × AuthorBucket α)) (author fullName : String)
    (r : α) : List (String × AuthorBucket α) :=
  match alookup m author with
  | some _ => amodify m author (fun b => { b with count := b.count + 1, list := b.list ++ [r] })
  | none => m ++ [(author, { count := 1, list := [r], full_name := fullName })]

/-- The inner author loop of the commit processor (`gather.py`
lines 324-340): add the record once per name, resolving each name's
full name independently. -/
def addAuthorsCommit (mappings : List (String × String)) (r : CommitEntry)
    (names : List String) (m : List (String × AuthorBucket CommitEntry)) :
    List (String × AuthorBucket CommitEntry) :=
  names.foldl (fun acc an => bucketAdd acc an (get_full_name an mappings) r) m

/-- Index of the first milestone whose cutoff exceeds `t`
(the `for i, ms_date in enumerate(ms_dates): if date_t < ms_date` search,
`gather.py` lines 322-323 / 448-449). -/
def firstIdxLt : List Milestone → Int → Option Nat
  | [], _ => none
  | m :: rest, t => if t < m.cutoff then some 0 else (firstIdxLt rest t).map (· + 1)

/-- The milestone loop with its `break` (`gather.py` lines 322-341 /
448-482): walk the milestone list, apply `add` at the first index whose
cutoff exceeds `t`, run nothing if no cutoff does. -/
def addByMs {σ : Type} : List Milestone → Nat → Int → (Nat → σ → σ) → σ → σ
  | [], _, _, _, s => s
  | m :: rest, i, t, add, s => if t < m.cutoff then add i s else addByMs rest (i + 1) t add s

/-- Classification of a timestamp, as §4.2 names the combined code path:
the not-before guard (`gather.py` line 296) followed by the milestone
search (`gather.py` lines 322-323). -/
inductive Classification where
  | belowCutoff
  | bucket (i : Nat)
  | aboveAll
deriving DecidableEq, Repr

/-- `classify(timestamp)` extracted from the code path of
`gather.py` lines 296 and 322-323. -/
def classify (nb : Int) (ms : List Milestone) (t : Int) : Classification :=
  if t < nb then .belowCutoff
  else
    match firstIdxLt ms t with
    | some i => .bucket i
    | none => .aboveAll

/-- Rank of a classification under the ordering
BelowCutoff < bucket 0 < bucket 1 < … < AboveAllMilestones,
for a milestone list of length `n` (all reachable bucket indices
are `< n`, so `aboveAll` sits above every bucket). -/
def classRank (n : Nat) : Classification → Nat
  | .belowCutoff => 0
  | .bucket i => i + 1
  | .aboveAll => n + 1

/-- Processing of one commit item past the not-before guard
(`gather.py` lines 300-341): fetch the diff (unconditionally — this path
never consults the cache), store it under the commit's sha, build the
record, and add it under every credited identity in the first matching
milestone bucket. -/
def processCommitStep (mappings : List (String × String)) (fetchDiff : String → DiffStat)
    (ms : List Milestone) (st : HarvestState) (c : CommitItem) : HarvestState :=
  let diff := fetchDiff c.sha
  let cache' := astore st.cache c.sha diff
  let r : CommitEntry :=
    { message := c.message, date := c.dateStr, link := c.html_url,
      diffFiles := diff.filenames.length, diffTotal := diff.total }
  let msl' := addByMs ms 0 c.date
    (fun i s => modifyIdx s i
      (fun mb => { mb with commits := addAuthorsCommit mappings r (commitNames c) mb.commits }))
    st.msl
  { msl := msl', cache := cache', calls := st.calls ++ [c.sha] }

/-- The per-PR diff loop (`gather.py` lines 431-437): for each sha in
order, use the cached diff when present, otherwise fetch and cache it.
Accumulates (cache, remote-call trace delta, collected diffs). -/
def prDiffFold (fetchDiff : String → DiffStat) :
    List String → List (String × DiffStat) × List String × List DiffStat →
    List (String × DiffStat) × List String × List DiffStat
  | [], acc => acc
  | sha :: rest, (cch, cls, ds) =>
    match alookup cch sha with
    | none =>
      let d := fetchDiff sha
      prDiffFold fetchDiff rest (astore cch sha d, cls ++ [sha], ds ++ [d])
    | some d => prDiffFold fetchDiff rest (cch, cls, ds ++ [d])

/-- Processing of one issue/PR item past the not-before guard
(`gather.py` lines 392-482): gather comments when the reported count is
positive, aggregate the PR's constituent-commit diffs through the cache
(file-set union, line-count sum), and record the item under its author
in the first matching milestone bucket, keyed `prs` or `issues`. -/
def processIssueStep (mappings : List (String × String)) (fetchDiff : String → DiffStat)
    (ms : List Milestone) (st : HarvestState) (it : IssueItem) : HarvestState :=
  let comments : List CommentEntry :=
    if it.commentsCount > 0 then
      it.commentsData.map (fun p =>
        { author := p.1, author_full_name := get_full_name p.1 mappings, body := p.2 })
    else []
  let prResult :=
    if it.is_pr then
      let shas := dedupKeepFirst it.prCommitShas
      let acc := prDiffFold fetchDiff shas (st.cache, [], [])
      let files := ((acc.2.2.map (·.filenames)).flatten.eraseDups).length
      let total := (acc.2.2.map (·.total)).sum
      (acc.1, acc.2.1, some (files, total))
    else (st.cache, ([] : List String), (none : Option (Nat × Int)))
  let d : IssueEntry :=
    { title := it.title, desc := it.body, date := it.dateStr,
      labels := it.labels, assignees := it.assignees,
      assignee_full_names := it.assignees.map (fun a => get_full_name a mappings),
      link := it.html_url, state := it.state, comments := comments, diff := prResult.2.2 }
  let msl' := addByMs ms 0 it.created
    (fun i s => modifyIdx s i
      (fun mb =>
        if it.is_pr then
          { mb with prs := bucketAdd mb.prs it.author (get_full_name it.author mappings) d }
        else
          { mb with issues := bucketAdd mb.issues it.author (get_full_name it.author mappings) d }))
    st.msl
  { msl := msl', cache := prResult.1, calls := st.calls ++ prResult.2.1 }

/-- The per-item loop of one page (`gather.py` lines 291-344 / 382-485):
process items in order until one tests below the not-before cutoff, which
sets `seen_before` and breaks, leaving later items of the page unprocessed. -/
def processPage {σ ι : Type} (below : ι → Bool) (step : σ → ι → σ) :
    σ → List ι → σ × Bool
  | st, [] => (st, false)
  | st, it :: rest =>
    if below it then (st, true)
    else processPage below step (step st it) rest

/-- The page loop of a paginated fetcher (`gather.py` lines 259-356 /
364-497): request pages in increasing order starting at 1; stop without
persisting on a fetch error or an empty page; otherwise process the page's
items, persist the snapshot, and stop if `seen_before` was set.
Pages beyond the supplied list model the remote returning an empty list.
Returns the final state, the persisted snapshots in order, and the number
of pages requested. -/
def fetchPages {σ ι π : Type} (below : ι → Bool) (step : σ → ι → σ) (persist : σ → π) :
    List (PageResult ι) → σ → σ × List π × Nat
  | [], st => (st, [], 1)
  | .fetchError :: _, st => (st, [], 1)
  | .content [] :: _, st => (st, [], 1)
  | .content (it :: its) :: rest, st =>
    let pr := processPage below step st (it :: its)
    if pr.2 then (pr.1, [persist pr.1], 1)
    else
      let next := fetchPages below step persist rest pr.1
      (next.1, persist pr.1 :: next.2.1, next.2.2 + 1)

/-- `gather_commits` (`gather.py` lines 252-356) as a pure function of the
remote's page results and the incoming state. -/
def gather_commits (mappings : List (String × String)) (fetchDiff : String → DiffStat)
    (nb : Int) (ms : List Milestone) (pages : List (PageResult CommitItem))
    (st : HarvestState) : HarvestState × List (List MsBucket) × Nat :=
  fetchPages (fun c => decide (c.date < nb)) (processCommitStep mappings fetchDiff ms)
    (fun s => s.msl) pages st

/-- `gather_issues_and_prs` (`gather.py` lines 358-497) as a pure function
of the remote's page results and the incoming state. -/
def gather_issues_and_prs (mappings : List (String × String)) (fetchDiff : String → DiffStat)
    (nb : Int) (ms : List Milestone) (pages : List (PageResult IssueItem))
    (st : HarvestState) : HarvestState × List (List MsBucket) × Nat :=
  fetchPages (fun it => decide (it.created < nb)) (processIssueStep mappings fetchDiff ms)
    (fun s => s.msl) pages st

/-- Ordering used to sort a record list by its `date` string
(`gather.py` lines 515-518, `key=lambda x: x['date']`). -/
def dateLeC (x y : CommitEntry) : Prop := x.date ≤ y.date

/-- Ordering used to sort an issue/PR record list by its `date` string. -/
def dateLeI (x y : IssueEntry) : Prop := x.date ≤ y.date

/-- Ordering used to sort an author-keyed mapping by identity string
(`gather.py` line 524, `dict(sorted(m.items()))`; Python compares the
`(key, value)` tuples, which for the distinct keys of a dict reduces to
comparing the keys). -/
def keyLe {β : Type} (p q : String × β) : Prop := p.1 ≤ q.1

instance : DecidableRel dateLeC := fun x y => inferInstanceAs (Decidable (x.date ≤ y.date))

instance : DecidableRel dateLeI := fun x y => inferInstanceAs (Decidable (x.date ≤ y.date))

instance {β : Type} : DecidableRel (keyLe (β := β)) :=
  fun p q => inferInstanceAs (Decidable (p.1 ≤ q.1))

instance : IsTotal CommitEntry dateLeC := ⟨fun a b => le_total a.date b.date⟩

instance : IsTrans CommitEntry dateLeC := ⟨fun _ _ _ h1 h2 => le_trans h1 h2⟩

instance : IsTotal IssueEntry dateLeI := ⟨fun a b => le_total a.date b.date⟩

instance : IsTrans IssueEntry dateLeI := ⟨fun _ _ _ h1 h2 => le_trans h1 h2⟩

instance {β : Type} : IsTotal (String × β) (keyLe (β := β)) := ⟨fun a b => le_total a.1 b.1⟩

instance {β : Type} : IsTrans (String × β) (keyLe (β := β)) :=
  ⟨fun _ _ _ h1 h2 => le_trans h1 h2⟩

/-- Python `sorted` is a stable sort; on a total preorder any stable sort
computes the same list, so it is modelled by insertion sort. -/
def sortCommitList (l : List CommitEntry) : List CommitEntry :=
  List.insertionSort dateLeC l

/-- Python `sorted` on issue/PR record lists. -/
def sortIssueList (l : List IssueEntry) : List IssueEntry :=
  List.insertionSort dateLeI l

/-- Python `dict(sorted(m.items()))` on an author-keyed mapping. -/
def sortAuthorMap {β : Type} (m : List (String × β)) : List (String × β) :=
  List.insertionSort keyLe m

/-- Per-entry record-list sort of the first finalization pass. -/
def sortListsMB (mb : MsBucket) : MsBucket :=
  { mb with
    commits := mb.commits.map (fun p => (p.1, { p.2 with list := sortCommitList p.2.list })),
    issues := mb.issues.map (fun p => (p.1, { p.2 with list := sortIssueList p.2.list })),
    prs := mb.prs.map (fun p => (p.1, { p.2 with list := sortIssueList p.2.list })) }

/-- Author-key sort of the second finalization pass. -/
def sortKeysMB (mb : MsBucket) : MsBucket :=
  { mb with
    commits := sortAuthorMap mb.commits,
    issues := sortAuthorMap mb.issues,
    prs := sortAuthorMap mb.prs }

/-- `finalize_repo_data` (`gather.py` lines 499-529) as a pure snapshot
transformation: first sort every author's record list by date ascending
(lines 512-518), then reorder every author-keyed mapping by identity
string ascending (lines 522-524). The stats computation of lines 504-508
only logs and the final dump persists the result. -/
def finalize_repo_data (msl : List MsBucket) : List MsBucket :=
  (msl.map sortListsMB).map sortKeysMB

/-- The empty snapshot built per repository (`gather.py` line 226). -/
def initialMsl (ms : List Milestone) : List MsBucket :=
  ms.map (fun m => { date := m.label, commits := [], issues := [], prs := [] })

/-- The fresh harvesting state of one repository (`gather.py`
lines 226 and 239: empty milestone buckets, empty `prev_diffs`). -/
def initialState (ms : List Milestone) : HarvestState :=
  { msl := initialMsl ms, cache := [], calls := [] }

/-- The remote behaviour of one repository, as consumed by the harvester. -/
structure RepoEnv where
  meta : MetaResult
  commitPages : List (PageResult CommitItem)
  issuePages : List (PageResult IssueItem)
  fetchDiff : String → DiffStat

/-- The states reached by one repository's harvest: after the commit
phase and after the issue/PR phase (`gather.py` lines 242-246, which
share `ms_l` and `prev_diffs` between the two phases). -/
def harvestStates (mappings : List (String × String)) (nb : Int) (ms : List Milestone)
    (env : RepoEnv) : HarvestState × HarvestState :=
  let st1 := (gather_commits mappings env.fetchDiff nb ms env.commitPages (initialState ms)).1
  (st1, (gather_issues_and_prs mappings env.fetchDiff nb ms env.issuePages st1).1)

/-- The sequence of snapshots written to the repository's output file
during one harvest (`gather.py` lines 347-348, 488-489, 528-529):
one write per processed page of each phase, then the finalized snapshot. -/
def harvestRepo (mappings : List (String × String)) (nb : Int) (ms : List Milestone)
    (env : RepoEnv) : List (List MsBucket) :=
  let r1 := gather_commits mappings env.fetchDiff nb ms env.commitPages (initialState ms)
  let r2 := gather_issues_and_prs mappings env.fetchDiff nb ms env.issuePages r1.1
  r1.2.1 ++ r2.2.1 ++ [finalize_repo_data r2.1.msl]

/-- A write of a snapshot to the per-repository output file. -/
inductive Event where
  | write (owner repo : String) (snap : List MsBucket)
deriving DecidableEq, Repr

/-- `process_repos` (`gather.py` lines 202-250): for each repository in
input order, check metadata; a 404 logs and `continue`s with no side
effects; any other error status makes `raise_for_status` raise with no
enclosing handler in the loop or around the call site in `main`
(`gather.py` line 600), aborting the whole run; on success the repository
is harvested and its writes performed. Returns the write events in order
and whether the run aborted. -/
def process_repos (mappings : List (String × String)) (nb : Int) (ms : List Milestone) :
    List (String × String × RepoEnv) → List Event × Bool
  | [] => ([], false)
  | (owner, repo, env) :: rest =>
    match env.meta with
    | .notFound => process_repos mappings nb ms rest
    | .httpError => ([], true)
    | .ok =>
      let writes := (harvestRepo mappings nb ms env).map (Event.write owner repo)
      let next := process_repos mappings nb ms rest
      (writes ++ next.1, next.2)

/-- Outcome of one HTTP attempt inside `get_diff` (`gather.py`
lines 24-45): success with the parsed body's filename list and total;
a `requests.exceptions.RequestException` (network error, or an HTTP
error status surfaced by `raise_for_status`); a `json.JSONDecodeError`
(unparseable body); or a body that parses as JSON but lacks the expected
`'files'`/`'stats'` fields, which raises a `KeyError`/`TypeError` that the
`except` clause at line 33 does not catch. -/
inductive DiffAttempt where
  | ok (filenames : List String) (total : Int)
  | netError
  | parseError
  | badShape
deriving DecidableEq, Repr

/-- Result of a `get_diff` call: a returned `DiffStat`, an uncaught
exception propagating to the caller, or the Python implicit `None` when
`range(retry_count)` is empty. -/
inductive GetDiffResult where
  | ok (d : DiffStat)
  | raised
  | fellThrough
deriving DecidableEq, Repr

/-- Whether the `except (RequestException, JSONDecodeError)` clause at
`gather.py` line 33 catches this attempt outcome. -/
def caughtAttempt : DiffAttempt → Bool
  | .netError => true
  | .parseError => true
  | _ => false

/-- The attempt loop of `get_diff` (`gather.py` lines 24-45), from
attempt index `attempt` with `retry_count` total attempts. `res` gives
the outcome of each attempt. On success the filename set is built by the
set comprehension of line 30 (modelled by `eraseDups`); on a caught
failure at the last attempt the empty/zero result is returned (line 36);
otherwise the loop sleeps `2 ^ attempt` (line 45, recorded in the delay
trace) and retries. The extra rate-limit sleep of lines 38-43 depends on
wall-clock time and is not modelled. The recursion is driven by `fuel`,
the number of loop iterations left, which `get_diff` starts at
`retry_count` so that `fuel = retry_count - attempt` throughout; `fuel = 0`
is Python's fall-through past `range(retry_count)`, returning `None`. -/
def get_diff_loop (res : Nat → DiffAttempt) (retry_count : Nat) :
    Nat → Nat → GetDiffResult × List Nat
  | _, 0 => (.fellThrough, [])
  | attempt, fuel + 1 =>
    match res attempt with
    | .ok fns total => (.ok { filenames := fns.eraseDups, total := total }, [])
    | .badShape => (.raised, [])
    | .netError =>
      if attempt = retry_count - 1 then (.ok { filenames := [], total := 0 }, [])
      else
        let r := get_diff_loop res retry_count (attempt + 1) fuel
        (r.1, 2 ^ attempt :: r.2)
    | .parseError =>
      if attempt = retry_count - 1 then (.ok { filenames := [], total := 0 }, [])
      else
        let r := get_diff_loop res retry_count (attempt + 1) fuel
        (r.1, 2 ^ attempt :: r.2)

/-- `get_diff` (`gather.py` lines 22-45): run the attempt loop from
attempt 0, default `retry_count = 3`. -/
def get_diff (res : Nat → DiffAttempt) (retry_count : Nat := 3) : GetDiffResult × List Nat :=
  get_diff_loop res retry_count 0 retry_count

theorem alookup_amodify {β : Type} (m : List (String × β)) (k : String) (f : β → β)
    (x : String) :
    alookup (amodify m k f) x = if x = k then (alookup m k).map f else alookup m x := by
  induction m with
  | nil => simp [alookup, amodify]
  | cons p rest ih =>
    obtain ⟨pk, pv⟩ := p
    by_cases hpk : pk = k
    · subst hpk
      by_cases hx : pk = x
      · subst hx
        simp [alookup, amodify]
      · have hx' : ¬ x = pk := fun h => hx h.symm
        simp [alookup, amodify, hx, hx']
    · by_cases hx : pk = x
      · subst hx
        simp [alookup, amodify, hpk]
      · simp [alookup, amodify, hpk, hx, ih]

theorem alookup_append {β : Type} (m1 m2 : List (String × β)) (x : String) :
    alookup (m1 ++ m2) x =
      match alookup m1 x with
      | some v => some v
      | none => alookup m2 x := by
  induction m1 with
  | nil => simp [alookup]
  | cons p rest ih =>
    obtain ⟨pk, pv⟩ := p
    by_cases hx : pk = x
    · simp [alookup, hx]
    · simp [alookup, hx, ih]

theorem alookup_astore {β : Type} (m : List (String × β)) (k : String) (v : β)
    (x : String) :
    alookup (astore m k v) x = if x = k then some v else alookup m x := by
  unfold astore
  cases hm : alookup m k with
  | some w =>
    rw [alookup_amodify]
    by_cases hx : x = k
    · simp [hx, hm]
    · simp [hx]
  | none =>
    rw [alookup_append]
    by_cases hx : x = k
    · subst hx
      simp [hm, alookup]
    · have hx' : ¬ k = x := fun h => hx h.symm
      cases hmx : alookup m x <;> simp [alookup, hmx, hx, hx']

theorem alookup_bucketAdd {α : Type} (m : List (String × AuthorBucket α))
    (a fn : String) (r : α) (x : String) :
    alookup (bucketAdd m a fn r) x =
      if x = a then
        match alookup m a with
        | some b => some { b with count := b.count + 1, list := b.list ++ [r] }
        | none => some { count := 1, list := [r], full_name := fn }
      else alookup m x := by
  unfold bucketAdd
  cases hm : alookup m a with
  | some b =>
    rw [alookup_amodify]
    by_cases hx : x = a <;> simp [hx, hm]
  | none =>
    rw [alookup_append]
    by_cases hx : x = a
    · subst hx
      simp [hm, alookup]
    · have hx' : ¬ a = x := fun h => hx h.symm
      cases hmx : alookup m x <;> simp [alookup, hmx, hx, hx']

theorem alookup_addAuthorsCommit (mappings : List (String × String)) (r : CommitEntry)
    (names : List String) (m : List (String × AuthorBucket CommitEntry)) (x : String) :
    alookup (addAuthorsCommit mappings r names m) x =
      match alookup m x with
      | some b => some { b with
          count := b.count + names.count x,
          list := b.list ++ List.replicate (names.count x) r }
      | none =>
        if names.count x = 0 then none
        else some {
          count := names.count x,
          list := List.replicate (names.count x) r,
          full_name := get_full_name x mappings } := by
  induction names generalizing m with
  | nil =>
    cases hm : alookup m x <;> simp [addAuthorsCommit, hm]
  | cons n rest ih =>
    have step : addAuthorsCommit mappings r (n :: rest) m =
        addAuthorsCommit mappings r rest (bucketAdd m n (get_full_name n mappings) r) := by
      simp [addAuthorsCommit]
    rw [step, ih, alookup_bucketAdd]
    by_cases hx : x = n
    · subst hx
      have hc : (x :: rest).count x = rest.count x + 1 := by
        simp [List.count_cons]
      cases hm : alookup m x with
      | some b =>
        have harr : b.list ++ [r] ++ List.replicate (rest.count x) r =
            b.list ++ List.replicate (rest.count x + 1) r := by
          rw [List.append_assoc, List.replicate_succ]
          rfl
        have hcnt : b.count + 1 + rest.count x = b.count + (rest.count x + 1) := by omega
        simp [hm, hc, harr, hcnt]
      | none =>
        simp [hm, hc, List.replicate_succ, Nat.add_comm]
    · have hx' : ¬ x = n := hx
      have hc : (n :: rest).count x = rest.count x := by
        simp [List.count_cons, hx']
      simp only [if_neg hx, hc]

theorem addByMs_eq {σ : Type} (ms : List Milestone) (i0 : Nat) (t : Int)
    (add : Nat → σ → σ) (s : σ) :
    addByMs ms i0 t add s =
      match firstIdxLt ms t with
      | some j => add (i0 + j) s
      | none => s := by
  induction ms generalizing i0 with
  | nil => simp [addByMs, firstIdxLt]
  | cons m rest ih =>
    by_cases h : t < m.cutoff
    · simp [addByMs, firstIdxLt, h]
    · rw [show addByMs (m :: rest) i0 t add s = addByMs rest (i0 + 1) t add s by
        simp [addByMs, h]]
      rw [ih]
      cases hf : firstIdxLt rest t with
      | some j => simp [firstIdxLt, h, hf, Nat.add_assoc, Nat.add_comm 1 j]
      | none => simp [firstIdxLt, h, hf]

theorem firstIdxLt_some_getElem (ms : List Milestone) (t : Int) (i : Nat)
    (h : firstIdxLt ms t = some i) :
    ∃ m, ms[i]? = some m ∧ t < m.cutoff := by
  induction ms generalizing i with
  | nil => simp [firstIdxLt] at h
  | cons m rest ih =>
    by_cases hc : t < m.cutoff
    · simp [firstIdxLt, hc] at h
      subst h
      exact ⟨m, by simp, hc⟩
    · simp [firstIdxLt, hc] at h
      obtain ⟨j, hj, hji⟩ := h
      obtain ⟨m', hm', ht⟩ := ih j hj
      exact ⟨m', by simp [← hji, hm'], ht⟩

theorem firstIdxLt_some_first (ms : List Milestone) (t : Int) (i : Nat)
    (h : firstIdxLt ms t = some i) (j : Nat) (hj : j < i) :
    ∃ m, ms[j]? = some m ∧ m.cutoff ≤ t := by
  induction ms generalizing i j with
  | nil => simp [firstIdxLt] at h
  | cons m rest ih =>
    by_cases hc : t < m.cutoff
    · simp [firstIdxLt, hc] at h
      omega
    · simp [firstIdxLt, hc] at h
      obtain ⟨i', hi', hii⟩ := h
      cases j with
      | zero => exact ⟨m, by simp, not_lt.mp hc⟩
      | succ j' =>
        obtain ⟨m', hm', ht⟩ := ih i' hi' j' (by omega)
        exact ⟨m', by simp [hm'], ht⟩

theorem firstIdxLt_none_iff (ms : List Milestone) (t : Int) :
    firstIdxLt ms t = none ↔ ∀ m ∈ ms, m.cutoff ≤ t := by
  induction ms with
  | nil => simp [firstIdxLt]
  | cons m rest ih =>
    by_cases hc : t < m.cutoff
    · simp only [firstIdxLt, if_pos hc]
      constructor
      · intro h
        exact absurd h (by simp)
      · intro h
        exact absurd hc (not_lt.mpr (h m (List.mem_cons_self _ _)))
    · simp [firstIdxLt, hc, ih, not_lt.mp hc]

theorem getLast?_mem_milestones (ms : List Milestone) (ml : Milestone)
    (h : ms.getLast? = some ml) : ml ∈ ms := by
  induction ms with
  | nil => simp at h
  | cons m rest ih =>
    cases rest with
    | nil =>
      simp [List.getLast?] at h
      simp [h]
    | cons m2 rest2 =>
      rw [List.getLast?_cons_cons] at h
      exact List.mem_cons_of_mem m (ih h)

theorem cutoff_le_getLast (ms : List Milestone)
    (hinc : List.Chain' (· < ·) (ms.map (·.cutoff))) (ml : Milestone)
    (h : ms.getLast? = some ml) : ∀ m ∈ ms, m.cutoff ≤ ml.cutoff := by
  induction ms with
  | nil => simp at h
  | cons m rest ih =>
    cases rest with
    | nil =>
      simp [List.getLast?] at h
      simp [h]
    | cons m2 rest2 =>
      rw [List.getLast?_cons_cons] at h
      simp only [List.map_cons] at hinc
      rw [List.chain'_cons] at hinc
      simp only [← List.map_cons] at hinc
      intro x hx
      rcases List.mem_cons.mp hx with hxm | hxr
      · subst hxm
        have h2 : m2.cutoff ≤ ml.cutoff :=
          ih hinc.2 h m2 (List.mem_cons_self _ _)
        have h1 : x.cutoff < m2.cutoff := by
          simpa using hinc.1
        omega
      · exact ih hinc.2 h x hxr

theorem modifyIdx_getElem {σ : Type} (l : List σ) (i : Nat) (f : σ → σ) (j : Nat) :
    (modifyIdx l i f)[j]? = if j = i then (l[j]?).map f else l[j]? := by
  induction l generalizing i j with
  | nil => simp [modifyIdx]
  | cons a rest ih =>
    cases i with
    | zero =>
      cases j with
      | zero => simp [modifyIdx]
      | succ j' => simp [modifyIdx]
    | succ i' =>
      cases j with
      | zero => simp [modifyIdx]
      | succ j' => simpa [modifyIdx] using ih i' j'

theorem firstIdxLt_mono (ms : List Milestone) (t1 t2 : Int) (h : t1 ≤ t2) :
    (∀ j, firstIdxLt ms t2 = some j → ∃ i, firstIdxLt ms t1 = some i ∧ i ≤ j) ∧
    (∀ i, firstIdxLt ms t1 = some i → ∃ m, ms[i]? = some m) := by
  induction ms with
  | nil => simp [firstIdxLt]
  | cons m rest ih =>
    constructor
    · intro j hj
      by_cases hc1 : t1 < m.cutoff
      · exact ⟨0, by simp [firstIdxLt, hc1], Nat.zero_le j⟩
      · have hc2 : ¬ t2 < m.cutoff := fun hlt => hc1 (lt_of_le_of_lt h hlt)
        simp [firstIdxLt, hc2] at hj
        obtain ⟨j', hj', hjj⟩ := hj
        obtain ⟨i', hi', hii⟩ := ih.1 j' hj'
        exact ⟨i' + 1, by simp [firstIdxLt, hc1, hi'], by omega⟩
    · intro i hi
      by_cases hc1 : t1 < m.cutoff
      · simp [firstIdxLt, hc1] at hi
        subst hi
        exact ⟨m, by simp⟩
      · simp [firstIdxLt, hc1] at hi
        obtain ⟨i', hi', hii⟩ := hi
        obtain ⟨m', hm'⟩ := ih.2 i' hi'
        exact ⟨m', by simp [← hii, hm']⟩

/-- The per-page states of a run: the state after each page's items. -/
def pageStates {σ ι : Type} (step : σ → ι → σ) (st : σ) : List (List ι) → List σ
  | [] => []
  | p :: ps =>
    let st' := p.foldl step st
    st' :: pageStates step st' ps

theorem processPage_all {σ ι : Type} (below : ι → Bool) (step : σ → ι → σ)
    (st : σ) (l : List ι) (h : ∀ x ∈ l, below x = false) :
    processPage below step st l = (l.foldl step st, false) := by
  induction l generalizing st with
  | nil => simp [processPage]
  | cons it rest ih =>
    have hit : below it = false := h it (List.mem_cons_self _ _)
    simp only [processPage, hit, Bool.false_eq_true, if_neg, List.foldl_cons]
    exact ih (step st it) (fun x hx => h x (List.mem_cons_of_mem _ hx))

theorem processPage_split {σ ι : Type} (below : ι → Bool) (step : σ → ι → σ)
    (st : σ) (a : List ι) (b : ι) (c : List ι)
    (ha : ∀ x ∈ a, below x = false) (hb : below b = true) :
    processPage below step st (a ++ b :: c) = (a.foldl step st, true) := by
  induction a generalizing st with
  | nil => simp [processPage, hb]
  | cons it rest ih =>
    have hit : below it = false := ha it (List.mem_cons_self _ _)
    simp only [List.cons_append, processPage, hit, Bool.false_eq_true, if_neg, List.foldl_cons]
    exact ih (step st it) (fun x hx => ha x (List.mem_cons_of_mem _ hx))

theorem fetchPages_early {σ ι π : Type} (below : ι → Bool) (step : σ → ι → σ)
    (persist : σ → π) (pre : List (List ι)) (a : List ι) (b : ι) (c : List ι)
    (rest : List (PageResult ι)) (st : σ)
    (hpre : ∀ p ∈ pre, p ≠ [] ∧ ∀ x ∈ p, below x = false)
    (ha : ∀ x ∈ a, below x = false) (hb : below b = true) :
    fetchPages below step persist (pre.map PageResult.content ++
        PageResult.content (a ++ b :: c) :: rest) st =
      ((pre.flatten ++ a).foldl step st,
       (pageStates step st (pre ++ [a])).map persist,
       pre.length + 1) := by
  induction pre generalizing st with
  | nil =>
    have hsplit := processPage_split below step st a b c ha hb
    cases a with
    | nil =>
      simp only [List.map_nil, List.nil_append, List.flatten_nil]
      simp only [List.nil_append] at hsplit
      simp [fetchPages, hsplit, pageStates]
    | cons a0 arest =>
      simp only [List.map_nil, List.nil_append, List.flatten_nil]
      simp only [List.cons_append] at hsplit
      simp [fetchPages, hsplit, pageStates]
  | cons p pre' ih =>
    obtain ⟨hp, hpf⟩ := hpre p (List.mem_cons_self _ _)
    have hall := processPage_all below step st p hpf
    cases p with
    | nil => exact absurd rfl hp
    | cons p0 prest =>
      simp only [List.map_cons, List.cons_append]
      simp only [fetchPages, hall]
      simp only [Bool.false_eq_true, if_neg]
      rw [ih ((p0 :: prest).foldl step st)
        (fun q hq => hpre q (List.mem_cons_of_mem _ hq))]
      simp [pageStates, List.foldl_append]

theorem processPage_inv {σ ι : Type} (below : ι → Bool) (step : σ → ι → σ)
    (P : σ → Prop) (hstep : ∀ s i, P s → P (step s i)) :
    ∀ (l : List ι) (st : σ), P st → P (processPage below step st l).1 := by
  intro l
  induction l with
  | nil => intro st h; simpa [processPage] using h
  | cons it rest ih =>
    intro st h
    by_cases hb : below it = true
    · simpa [processPage, hb] using h
    · simp only [processPage, hb, if_neg]
      exact ih (step st it) (hstep st it h)

theorem fetchPages_inv {σ ι π : Type} (below : ι → Bool) (step : σ → ι → σ)
    (persist : σ → π) (P : σ → Prop) (Q : π → Prop)
    (hstep : ∀ s i, P s → P (step s i))
    (hpersist : ∀ s, P s → Q (persist s)) :
    ∀ (pages : List (PageResult ι)) (st : σ), P st →
      P (fetchPages below step persist pages st).1 ∧
      ∀ q ∈ (fetchPages below step persist pages st).2.1, Q q := by
  intro pages
  induction pages with
  | nil => intro st h; simpa [fetchPages] using h
  | cons page rest ih =>
    intro st h
    cases page with
    | fetchError => simpa [fetchPages] using h
    | content items =>
      cases items with
      | nil => simpa [fetchPages] using h
      | cons it its =>
        have hpp : P (processPage below step st (it :: its)).1 :=
          processPage_inv below step P hstep (it :: its) st h
        cases hs : (processPage below step st (it :: its)).2 with
        | true =>
          constructor
          · simp only [fetchPages, hs, if_pos]
            exact hpp
          · simp only [fetchPages, hs, if_pos]
            intro q hq
            simp only [List.mem_singleton] at hq
            subst hq
            exact hpersist _ hpp
        | false =>
          have ihr := ih (processPage below step st (it :: its)).1 hpp
          constructor
          · simp only [fetchPages, hs, Bool.false_eq_true, if_neg]
            exact ihr.1
          · simp only [fetchPages, hs, Bool.false_eq_true, if_neg]
            intro q hq
            rcases List.mem_cons.mp hq with hq | hq
            · subst hq
              exact hpersist _ hpp
            · exact ihr.2 q hq

theorem map_id_of_mem {α : Type} (l : List α) (f : α → α) (h : ∀ x ∈ l, f x = x) :
    l.map f = l := by
  induction l with
  | nil => rfl
  | cons a rest ih =>
    rw [List.map_cons, h a (List.mem_cons_self _ _),
      ih (fun x hx => h x (List.mem_cons_of_mem _ hx))]

theorem sortAuthorMap_entry_idem {β : Type} (e : (String × β) → (String × β))
    (he : ∀ p, e (e p) = e p) (m : List (String × β)) :
    sortAuthorMap ((sortAuthorMap (m.map e)).map e) = sortAuthorMap (m.map e) := by
  have h1 : (sortAuthorMap (m.map e)).map e = sortAuthorMap (m.map e) := by
    apply map_id_of_mem
    intro x hx
    have hx' : x ∈ m.map e := by
      simpa [sortAuthorMap] using hx
    obtain ⟨q, _, rfl⟩ := List.mem_map.mp hx'
    exact he q
  rw [h1]
  unfold sortAuthorMap
  exact (List.sorted_insertionSort keyLe (m.map e)).insertionSort_eq

theorem finalizeMB_idem (mb : MsBucket) :
    sortKeysMB (sortListsMB (sortKeysMB (sortListsMB mb))) = sortKeysMB (sortListsMB mb) := by
  cases mb with
  | mk d cs is ps =>
    have heC : ∀ p : String × AuthorBucket CommitEntry,
        (fun q : String × AuthorBucket CommitEntry =>
          (q.1, { q.2 with list := sortCommitList q.2.list }))
        ((fun q : String × AuthorBucket CommitEntry =>
          (q.1, { q.2 with list := sortCommitList q.2.list })) p) =
        (fun q : String × AuthorBucket CommitEntry =>
          (q.1, { q.2 with list := sortCommitList q.2.list })) p := by
      intro p
      simp only
      rw [show sortCommitList (sortCommitList p.2.list) = sortCommitList p.2.list from
        (List.sorted_insertionSort dateLeC p.2.list).insertionSort_eq]
    have heI : ∀ p : String × AuthorBucket IssueEntry,
        (fun q : String × AuthorBucket IssueEntry =>
          (q.1, { q.2 with list := sortIssueList q.2.list }))
        ((fun q : String × AuthorBucket IssueEntry =>
          (q.1, { q.2 with list := sortIssueList q.2.list })) p) =
        (fun q : String × AuthorBucket IssueEntry =>
          (q.1, { q.2 with list := sortIssueList q.2.list })) p := by
      intro p
      simp only
      rw [show sortIssueList (sortIssueList p.2.list) = sortIssueList p.2.list from
        (List.sorted_insertionSort dateLeI p.2.list).insertionSort_eq]
    simp only [sortListsMB, sortKeysMB]
    congr 1
    · exact sortAuthorMap_entry_idem _ heC cs
    · exact sortAuthorMap_entry_idem _ heI is
    · exact sortAuthorMap_entry_idem _ heI ps

/-- The count invariant of a single author-keyed mapping:
every bucket's `count` equals the length of its record list. -/
def bucketInvMap {α : Type} (m : List (String × AuthorBucket α)) : Prop :=
  ∀ p ∈ m, p.2.count = p.2.list.length

/-- The count invariant of a whole snapshot. -/
def snapInv (msl : List MsBucket) : Prop :=
  ∀ mb ∈ msl, bucketInvMap mb.commits ∧ bucketInvMap mb.issues ∧ bucketInvMap mb.prs

instance {α : Type} (m : List (String × AuthorBucket α)) : Decidable (bucketInvMap m) :=
  inferInstanceAs (Decidable (∀ p ∈ m, p.2.count = p.2.list.length))

instance (msl : List MsBucket) : Decidable (snapInv msl) :=
  inferInstanceAs (Decidable (∀ mb ∈ msl, _ ∧ _ ∧ _))

theorem amodify_forall {β : Type} (m : List (String × β)) (k : String) (f : β → β)
    (Q : β → Prop) (hm : ∀ p ∈ m, Q p.2) (hf : ∀ b, Q b → Q (f b)) :
    ∀ p ∈ amodify m k f, Q p.2 := by
  induction m with
  | nil => simp [amodify]
  | cons q rest ih =>
    obtain ⟨qk, qv⟩ := q
    by_cases hk : qk = k
    · simp only [amodify, if_pos hk]
      intro p hp
      rcases List.mem_cons.mp hp with hp | hp
      · subst hp
        exact hf qv (hm (qk, qv) (List.mem_cons_self _ _))
      · exact hm p (List.mem_cons_of_mem _ hp)
    · simp only [amodify, if_neg hk]
      intro p hp
      rcases List.mem_cons.mp hp with hp | hp
      · subst hp
        exact hm (qk, qv) (List.mem_cons_self _ _)
      · exact ih (fun p hp => hm p (List.mem_cons_of_mem _ hp)) p hp

theorem bucketAdd_inv {α : Type} (m : List (String × AuthorBucket α)) (a fn : String)
    (r : α) (h : bucketInvMap m) : bucketInvMap (bucketAdd m a fn r) := by
  unfold bucketAdd
  cases alookup m a with
  | some b =>
    apply amodify_forall m a _ (fun b => b.count = b.list.length) h
    intro b hb
    simp [hb]
  | none =>
    intro p hp
    rcases List.mem_append.mp hp with hp | hp
    · exact h p hp
    · simp only [List.mem_singleton] at hp
      subst hp
      simp

theorem addAuthorsCommit_inv (mappings : List (String × String)) (r : CommitEntry)
    (names : List String) (m : List (String × AuthorBucket CommitEntry))
    (h : bucketInvMap m) : bucketInvMap (addAuthorsCommit mappings r names m) := by
  induction names generalizing m with
  | nil => exact h
  | cons n rest ih =>
    have step : addAuthorsCommit mappings r (n :: rest) m =
        addAuthorsCommit mappings r rest (bucketAdd m n (get_full_name n mappings) r) := by
      simp [addAuthorsCommit]
    rw [step]
    exact ih _ (bucketAdd_inv m n _ r h)

theorem modifyIdx_forall {σ : Type} (P : σ → Prop) (f : σ → σ)
    (hf : ∀ x, P x → P (f x)) :
    ∀ (l : List σ) (i : Nat), (∀ x ∈ l, P x) → ∀ x ∈ modifyIdx l i f, P x
  | [], _, _ => by simp [modifyIdx]
  | a :: rest, 0, hl => by
    intro x hx
    simp only [modifyIdx] at hx
    rcases List.mem_cons.mp hx with hx | hx
    · subst hx
      exact hf a (hl a (List.mem_cons_self _ _))
    · exact hl x (List.mem_cons_of_mem _ hx)
  | a :: rest, i + 1, hl => by
    intro x hx
    simp only [modifyIdx] at hx
    rcases List.mem_cons.mp hx with hx | hx
    · exact hx ▸ hl a (List.mem_cons_self _ _)
    · exact modifyIdx_forall P f hf rest i
        (fun y hy => hl y (List.mem_cons_of_mem _ hy)) x hx

theorem addByMs_forall {σ : Type} (ms : List Milestone) (i0 : Nat) (t : Int)
    (add : Nat → σ → σ) (P : σ → Prop) (hadd : ∀ i s, P s → P (add i s))
    (s : σ) (h : P s) : P (addByMs ms i0 t add s) := by
  induction ms generalizing i0 with
  | nil => exact h
  | cons m rest ih =>
    by_cases hc : t < m.cutoff
    · simpa [addByMs, hc] using hadd i0 s h
    · simpa [addByMs, hc] using ih (i0 + 1)

theorem processCommitStep_inv (mappings : List (String × String))
    (fetchDiff : String → DiffStat) (ms : List Milestone) (st : HarvestState)
    (c : CommitItem) (h : snapInv st.msl) :
    snapInv (processCommitStep mappings fetchDiff ms st c).msl := by
  unfold processCommitStep
  apply addByMs_forall _ _ _ _ snapInv
  · intro i s hs
    apply modifyIdx_forall
    · intro mb hmb
      exact ⟨addAuthorsCommit_inv _ _ _ _ hmb.1, hmb.2.1, hmb.2.2⟩
    · exact hs
  · exact h

theorem processIssueStep_inv (mappings : List (String × String))
    (fetchDiff : String → DiffStat) (ms : List Milestone) (st : HarvestState)
    (it : IssueItem) (h : snapInv st.msl) :
    snapInv (processIssueStep mappings fetchDiff ms st it).msl := by
  unfold processIssueStep
  apply addByMs_forall _ _ _ _ snapInv
  · intro i s hs
    apply modifyIdx_forall
    · intro mb hmb
      by_cases hpr : it.is_pr
      · simp only [if_pos hpr]
        exact ⟨hmb.1, hmb.2.1, bucketAdd_inv _ _ _ _ hmb.2.2⟩
      · simp only [if_neg hpr]
        exact ⟨hmb.1, bucketAdd_inv _ _ _ _ hmb.2.1, hmb.2.2⟩
    · exact hs
  · exact h

theorem finalize_inv (msl : List MsBucket) (h : snapInv msl) :
    snapInv (finalize_repo_data msl) := by
  unfold finalize_repo_data
  intro mb hmb
  simp only [List.map_map, List.mem_map] at hmb
  obtain ⟨mb0, hmb0, rfl⟩ := hmb
  have h0 := h mb0 hmb0
  have hfieldC : bucketInvMap (sortAuthorMap
      (mb0.commits.map (fun p => (p.1, { p.2 with list := sortCommitList p.2.list })))) := by
    intro p hp
    have hp' : p ∈ mb0.commits.map
        (fun p => (p.1, { p.2 with list := sortCommitList p.2.list })) := by
      simpa [sortAuthorMap] using hp
    obtain ⟨q, hq, rfl⟩ := List.mem_map.mp hp'
    have := h0.1 q hq
    simp [sortCommitList, this]
  have hfieldI : bucketInvMap (sortAuthorMap
      (mb0.issues.map (fun p => (p.1, { p.2 with list := sortIssueList p.2.list })))) := by
    intro p hp
    have hp' : p ∈ mb0.issues.map
        (fun p => (p.1, { p.2 with list := sortIssueList p.2.list })) := by
      simpa [sortAuthorMap] using hp
    obtain ⟨q, hq, rfl⟩ := List.mem_map.mp hp'
    have := h0.2.1 q hq
    simp [sortIssueList, this]
  have hfieldP : bucketInvMap (sortAuthorMap
      (mb0.prs.map (fun p => (p.1, { p.2 with list := sortIssueList p.2.list })))) := by
    intro p hp
    have hp' : p ∈ mb0.prs.map
        (fun p => (p.1, { p.2 with list := sortIssueList p.2.list })) := by
      simpa [sortAuthorMap] using hp
    obtain ⟨q, hq, rfl⟩ := List.mem_map.mp hp'
    have := h0.2.2 q hq
    simp [sortIssueList, this]
  exact ⟨hfieldC, hfieldI, hfieldP⟩

theorem initialMsl_inv (ms : List Milestone) : snapInv (initialMsl ms) := by
  intro mb hmb
  simp only [initialMsl, List.mem_map] at hmb
  obtain ⟨m, _, rfl⟩ := hmb
  refine ⟨?_, ?_, ?_⟩ <;> intro p hp <;> simp at hp

theorem harvestRepo_inv (mappings : List (String × String)) (nb : Int)
    (ms : List Milestone) (env : RepoEnv) :
    ∀ snap ∈ harvestRepo mappings nb ms env, snapInv snap := by
  have h0 : snapInv (initialState ms).msl := initialMsl_inv ms
  have h1 := fetchPages_inv (fun c : CommitItem => decide (c.date < nb))
    (processCommitStep mappings env.fetchDiff ms) (fun s => s.msl)
    (fun s => snapInv s.msl) snapInv
    (fun s i hs => processCommitStep_inv mappings env.fetchDiff ms s i hs)
    (fun s hs => hs) env.commitPages (initialState ms) h0
  have h2 := fetchPages_inv (fun it : IssueItem => decide (it.created < nb))
    (processIssueStep mappings env.fetchDiff ms) (fun s => s.msl)
    (fun s => snapInv s.msl) snapInv
    (fun s i hs => processIssueStep_inv mappings env.fetchDiff ms s i hs)
    (fun s hs => hs) env.issuePages
    (gather_commits mappings env.fetchDiff nb ms env.commitPages (initialState ms)).1 h1.1
  intro snap hsnap
  unfold harvestRepo at hsnap
  rcases List.mem_append.mp hsnap with hs | hs
  · rcases List.mem_append.mp hs with hs | hs
    · exact h1.2 snap hs
    · exact h2.2 snap hs
  · simp only [List.mem_singleton] at hs
    subst hs
    exact finalize_inv _ h2.1

theorem prDiffFold_spec (fd : String → DiffStat) (shas : List String)
    (cch : List (String × DiffStat)) (cls : List String) (ds : List DiffStat) :
    ∃ delta,
      (prDiffFold fd shas (cch, cls, ds)).2.1 = cls ++ delta ∧
      delta.Nodup ∧
      (∀ s ∈ delta, alookup cch s = none) ∧
      (∀ s, alookup (prDiffFold fd shas (cch, cls, ds)).1 s = alookup cch s ∨
        (s ∈ delta ∧ alookup (prDiffFold fd shas (cch, cls, ds)).1 s = some (fd s))) ∧
      (∀ s ∈ delta, alookup (prDiffFold fd shas (cch, cls, ds)).1 s = some (fd s)) := by
  induction shas generalizing cch cls ds with
  | nil =>
    refine ⟨[], by simp [prDiffFold], List.nodup_nil, by simp, fun s => Or.inl rfl, by simp⟩
  | cons sha rest ih =>
    cases hc : alookup cch sha with
    | some d =>
      have hstep : prDiffFold fd (sha :: rest) (cch, cls, ds) =
          prDiffFold fd rest (cch, cls, ds ++ [d]) := by
        simp [prDiffFold, hc]
      rw [hstep]
      exact ih cch cls (ds ++ [d])
    | none =>
      have hstep : prDiffFold fd (sha :: rest) (cch, cls, ds) =
          prDiffFold fd rest
            (astore cch sha (fd sha), cls ++ [sha], ds ++ [fd sha]) := by
        simp [prDiffFold, hc]
      rw [hstep]
      obtain ⟨delta, h1, h2, h3, h4, h5⟩ :=
        ih (astore cch sha (fd sha)) (cls ++ [sha]) (ds ++ [fd sha])
      have hsha_not : sha ∉ delta := by
        intro hmem
        have := h3 sha hmem
        rw [alookup_astore] at this
        simp at this
      refine ⟨sha :: delta, ?_, ?_, ?_, ?_, ?_⟩
      · rw [h1, List.append_assoc]
        rfl
      · exact List.nodup_cons.mpr ⟨hsha_not, h2⟩
      · intro s hs
        rcases List.mem_cons.mp hs with hs | hs
        · exact hs ▸ hc
        · have := h3 s hs
          rw [alookup_astore] at this
          by_cases hss : s = sha
          · simp [hss] at this
          · simpa [hss] using this
      · intro s
        rcases h4 s with hcase | hcase
        · rw [hcase, alookup_astore]
          by_cases hss : s = sha
          · exact Or.inr ⟨List.mem_cons.mpr (Or.inl hss), by simp [hss]⟩
          · exact Or.inl (by simp [hss])
        · exact Or.inr ⟨List.mem_cons_of_mem _ hcase.1, hcase.2⟩
      · intro s hs
        rcases List.mem_cons.mp hs with hs | hs
        · subst hs
          rcases h4 s with hcase | hcase
          · rw [hcase, alookup_astore]
            simp
          · exact absurd hcase.1 hsha_not
        · exact h5 s hs

theorem processCommitStep_calls (mappings : List (String × String))
    (fd : String → DiffStat) (ms : List Milestone) (st : HarvestState) (c : CommitItem) :
    (processCommitStep mappings fd ms st c).calls = st.calls ++ [c.sha] ∧
    (∀ s, alookup (processCommitStep mappings fd ms st c).cache s =
      if s = c.sha then some (fd c.sha) else alookup st.cache s) := by
  constructor
  · rfl
  · intro s
    show alookup (astore st.cache c.sha (fd c.sha)) s = _
    rw [alookup_astore]

theorem processIssueStep_calls (mappings : List (String × String))
    (fd : String → DiffStat) (ms : List Milestone) (st : HarvestState) (it : IssueItem) :
    ∃ delta,
      (processIssueStep mappings fd ms st it).calls = st.calls ++ delta ∧
      delta.Nodup ∧
      (∀ s ∈ delta, alookup st.cache s = none) ∧
      (∀ s, alookup (processIssueStep mappings fd ms st it).cache s = alookup st.cache s ∨
        (s ∈ delta ∧
         alookup (processIssueStep mappings fd ms st it).cache s = some (fd s))) ∧
      (∀ s ∈ delta, alookup (processIssueStep mappings fd ms st it).cache s = some (fd s)) := by
  by_cases hpr : it.is_pr
  · have hcache : (processIssueStep mappings fd ms st it).cache =
        (prDiffFold fd (dedupKeepFirst it.prCommitShas) (st.cache, [], [])).1 := by
      simp [processIssueStep, hpr]
    have hcalls : (processIssueStep mappings fd ms st it).calls =
        st.calls ++ (prDiffFold fd (dedupKeepFirst it.prCommitShas) (st.cache, [], [])).2.1 := by
      simp [processIssueStep, hpr]
    obtain ⟨delta, h1, h2, h3, h4, h5⟩ :=
      prDiffFold_spec fd (dedupKeepFirst it.prCommitShas) st.cache [] []
    refine ⟨delta, ?_, h2, h3, ?_, ?_⟩
    · rw [hcalls, h1]
      simp
    · intro s
      rw [hcache]
      exact h4 s
    · intro s hs
      rw [hcache]
      exact h5 s hs
  · have hcache : (processIssueStep mappings fd ms st it).cache = st.cache := by
      simp [processIssueStep, hpr]
    have hcalls : (processIssueStep mappings fd ms st it).calls = st.calls := by
      simp [processIssueStep, hpr]
    refine ⟨[], by simp [hcalls], List.nodup_nil, by simp, ?_, by simp⟩
    intro s
    rw [hcache]
    exact Or.inl rfl

/-- Relation between the state at the start of the issue/PR phase and a
later state of that phase: the diff calls made since the phase start are
pairwise-distinct shas that were absent from the phase-start cache, every
such sha is now cached, and the cache only grows. -/
def CallsInv (st1 st : HarvestState) : Prop :=
  ∃ d, st.calls = st1.calls ++ d ∧ d.Nodup ∧
    (∀ s ∈ d, alookup st1.cache s = none) ∧
    (∀ s ∈ d, alookup st.cache s ≠ none) ∧
    (∀ s, alookup st1.cache s ≠ none → alookup st.cache s ≠ none)

theorem CallsInv_refl (st1 : HarvestState) : CallsInv st1 st1 :=
  ⟨[], by simp, List.nodup_nil, by simp, by simp, fun _ h => h⟩

theorem CallsInv_step (mappings : List (String × String)) (fd : String → DiffStat)
    (ms : List Milestone) (st1 st : HarvestState) (it : IssueItem)
    (h : CallsInv st1 st) : CallsInv st1 (processIssueStep mappings fd ms st it) := by
  obtain ⟨d, hd1, hd2, hd3, hd4, hd5⟩ := h
  obtain ⟨delta, he1, he2, he3, he4, he5⟩ := processIssueStep_calls mappings fd ms st it
  refine ⟨d ++ delta, ?_, ?_, ?_, ?_, ?_⟩
  · rw [he1, hd1, List.append_assoc]
  · refine hd2.append he2 ?_
    intro s hsd hsdelta
    exact (hd4 s hsd) (he3 s hsdelta)
  · intro s hs
    rcases List.mem_append.mp hs with hs | hs
    · exact hd3 s hs
    · by_contra hne
      exact (hd5 s hne) (he3 s hs)
  · intro s hs
    rcases List.mem_append.mp hs with hs | hs
    · rcases he4 s with hc | hc
      · rw [hc]
        exact hd4 s hs
      · rw [hc.2]
        simp
    · rw [he5 s hs]
      simp
  · intro s hne
    rcases he4 s with hc | hc
    · rw [hc]
      exact hd5 s hne
    · rw [hc.2]
      simp

/-- Every cached diff value is exactly the remote's diff for that sha. -/
def CacheSound (fd : String → DiffStat) (st : HarvestState) : Prop :=
  ∀ s e, alookup st.cache s = some e → e = fd s

theorem CacheSound_commitStep (mappings : List (String × String)) (fd : String → DiffStat)
    (ms : List Milestone) (st : HarvestState) (c : CommitItem)
    (h : CacheSound fd st) : CacheSound fd (processCommitStep mappings fd ms st c) := by
  intro s e he
  rw [(processCommitStep_calls mappings fd ms st c).2 s] at he
  by_cases hs : s = c.sha
  · rw [if_pos hs] at he
    cases he
    rw [hs]
  · rw [if_neg hs] at he
    exact h s e he

theorem CacheSound_issueStep (mappings : List (String × String)) (fd : String → DiffStat)
    (ms : List Milestone) (st : HarvestState) (it : IssueItem)
    (h : CacheSound fd st) : CacheSound fd (processIssueStep mappings fd ms st it) := by
  obtain ⟨delta, he1, he2, he3, he4, he5⟩ := processIssueStep_calls mappings fd ms st it
  intro s e he
  rcases he4 s with hc | hc
  · rw [hc] at he
    exact h s e he
  · rw [hc.2] at he
    cases he
    rfl

theorem get_diff_loop_ok (res : Nat → DiffAttempt) (rc attempt fuel : Nat)
    (fns : List String) (total : Int) (hr : res attempt = .ok fns total) :
    get_diff_loop res rc attempt (fuel + 1) =
      (.ok { filenames := fns.eraseDups, total := total }, []) := by
  simp [get_diff_loop, hr]

theorem get_diff_loop_bad (res : Nat → DiffAttempt) (rc attempt fuel : Nat)
    (hr : res attempt = .badShape) :
    get_diff_loop res rc attempt (fuel + 1) = (.raised, []) := by
  simp [get_diff_loop, hr]

theorem get_diff_loop_last_caught (res : Nat → DiffAttempt) (rc attempt fuel : Nat)
    (heq : attempt = rc - 1) (hc : caughtAttempt (res attempt) = true) :
    get_diff_loop res rc attempt (fuel + 1) = (.ok { filenames := [], total := 0 }, []) := by
  subst heq
  cases hr : res (rc - 1) <;> simp [hr, caughtAttempt] at hc <;>
    simp [get_diff_loop, hr]

theorem get_diff_loop_succ_caught (res : Nat → DiffAttempt) (rc attempt fuel : Nat)
    (hne : attempt ≠ rc - 1) (hc : caughtAttempt (res attempt) = true) :
    get_diff_loop res rc attempt (fuel + 1) =
      ((get_diff_loop res rc (attempt + 1) fuel).1,
       2 ^ attempt :: (get_diff_loop res rc (attempt + 1) fuel).2) := by
  cases hr : res attempt <;> simp [hr, caughtAttempt] at hc <;>
    simp [get_diff_loop, hr, hne]

theorem get_diff_loop_no_raise (res : Nat → DiffAttempt) (rc : Nat)
    (h : ∀ i, i < rc → res i ≠ .badShape) :
    ∀ (fuel attempt : Nat), attempt + fuel ≤ rc →
      (get_diff_loop res rc attempt fuel).1 ≠ .raised := by
  intro fuel
  induction fuel with
  | zero =>
    intro attempt _
    simp [get_diff_loop]
  | succ fuel ih =>
    intro attempt hle
    cases hr : res attempt with
    | ok fns total => simp [get_diff_loop, hr]
    | badShape => exact absurd hr (h attempt (by omega))
    | netError =>
      by_cases hl : attempt = rc - 1
      · subst hl
        simp [get_diff_loop, hr]
      · simp only [get_diff_loop, hr, if_neg hl]
        exact ih (attempt + 1) (by omega)
    | parseError =>
      by_cases hl : attempt = rc - 1
      · subst hl
        simp [get_diff_loop, hr]
      · simp only [get_diff_loop, hr, if_neg hl]
        exact ih (attempt + 1) (by omega)

theorem classify_addByMs {σ : Type} (nb t : Int) (ms : List Milestone)
    (h : nb ≤ t) (add : Nat → σ → σ) (s : σ) :
    addByMs ms 0 t add s =
      (match classify nb ms t with
       | .bucket i => add i s
       | _ => s) := by
  rw [addByMs_eq]
  unfold classify
  rw [if_neg (not_lt.mpr h)]
  cases hf : firstIdxLt ms t <;> simp

/-- Sample diff lookup used to instantiate theorems on concrete inputs. -/
def sampleFetch : String → DiffStat :=
  fun _ => { filenames := [], total := 0 }

/-- Sample milestone list with strictly increasing cutoffs. -/
def wMilestones : List Milestone :=
  [{ cutoff := 10, label := "ms1" }, { cutoff := 20, label := "ms2" }]

/-- Sample commit item with timestamp 5 (inside bucket 0 for `wMilestones`). -/
def wCommitA : CommitItem :=
  { sha := "sa", url := "ua", html_url := "ha", date := 5, dateStr := "da",
    authorLogin := some "alice", commitAuthorName := none,
    message := "ma", coauthors := [] }

/-- Sample commit item older than a not-before cutoff of 0. -/
def wCommitOld : CommitItem :=
  { sha := "so", url := "uo", html_url := "ho", date := -1, dateStr := "do",
    authorLogin := some "olga", commitAuthorName := none,
    message := "mo", coauthors := [] }

/-- A second commit item older still. -/
def wCommitOld2 : CommitItem :=
  { sha := "so2", url := "uo2", html_url := "ho2", date := -2, dateStr := "do2",
    authorLogin := none, commitAuthorName := some "Marta",
    message := "mo2", coauthors := [] }

/-- Sample commit item sharing the sha of `wCommitS1`. -/
def wCommitS1 : CommitItem :=
  { sha := "s", url := "us1", html_url := "hs1", date := 5, dateStr := "ds1",
    authorLogin := some "sam", commitAuthorName := none,
    message := "ms1", coauthors := [] }

/-- A second occurrence of sha `"s"` in the commit feed. -/
def wCommitS2 : CommitItem :=
  { sha := "s", url := "us2", html_url := "hs2", date := 6, dateStr := "ds2",
    authorLogin := some "sam", commitAuthorName := none,
    message := "ms2", coauthors := [] }

/-- Sample plain issue item with timestamp 5. -/
def wIssueA : IssueItem :=
  { number := 1, is_pr := false, created := 5, dateStr := "da",
    title := "t1", body := "b1", labels := [], assignees := [],
    author := "alice", commentsCount := 0, commentsData := [],
    html_url := "hi1", state := "open", prCommitShas := [] }

/-- Sample issue item older than a not-before cutoff of 0. -/
def wIssueOld : IssueItem :=
  { number := 2, is_pr := false, created := -1, dateStr := "do",
    title := "t2", body := "b2", labels := [], assignees := [],
    author := "olga", commentsCount := 0, commentsData := [],
    html_url := "hi2", state := "closed", prCommitShas := [] }

/-- A second issue item older still. -/
def wIssueOld2 : IssueItem :=
  { number := 3, is_pr := false, created := -2, dateStr := "do2",
    title := "t3", body := "b3", labels := [], assignees := [],
    author := "olga", commentsCount := 0, commentsData := [],
    html_url := "hi3", state := "closed", prCommitShas := [] }

/-- Sample environment whose metadata check succeeds and whose feeds are
empty. -/
def wEnvOk : RepoEnv :=
  { meta := .ok, commitPages := [], issuePages := [], fetchDiff := sampleFetch }

/-- Sample environment whose metadata check returns 404. -/
def wEnvNF : RepoEnv :=
  { meta := .notFound, commitPages := [], issuePages := [], fetchDiff := sampleFetch }

/-- Sample environment whose metadata check returns a non-404 error
status. -/
def wEnvErr : RepoEnv :=
  { meta := .httpError, commitPages := [], issuePages := [], fetchDiff := sampleFetch }

/-- Sample environment whose commit feed contains the same sha twice. -/
def wEnvDup : RepoEnv :=
  { meta := .ok, commitPages := [PageResult.content [wCommitS1, wCommitS2]],
    issuePages := [], fetchDiff := sampleFetch }

/-- Sample environment whose commit feed contains one commit. -/
def wEnvOne : RepoEnv :=
  { meta := .ok, commitPages := [PageResult.content [wCommitA]],
    issuePages := [], fetchDiff := sampleFetch }

/-- C2: classification is monotonic: for timestamps `t1 ≤ t2` classified
against the same not-before cutoff and the same strictly increasing
milestone cutoffs, the classification of `t1` is below or equal to that of
`t2` under the ordering BelowCutoff < bucket 0 < bucket 1 < … <
AboveAllMilestones (realized by `classRank`). -/
theorem claim_C2_classify_monotone (nb : Int) (ms : List Milestone)
    (hinc : List.Chain' (· < ·) (ms.map (·.cutoff))) (t1 t2 : Int) (h : t1 ≤ t2) :
    classRank ms.length (classify nb ms t1) ≤ classRank ms.length (classify nb ms t2) := by
  unfold classify
  by_cases h2 : t2 < nb
  · have h1 : t1 < nb := lt_of_le_of_lt h h2
    simp [h1, h2, classRank]
  · by_cases h1 : t1 < nb
    · rw [if_pos h1, if_neg h2]
      cases hf : firstIdxLt ms t2 <;> simp [classRank]
    · rw [if_neg h1, if_neg h2]
      cases hf2 : firstIdxLt ms t2 with
      | some j =>
        obtain ⟨i, hi, hij⟩ := (firstIdxLt_mono ms t1 t2 h).1 j hf2
        rw [hi]
        simp only [classRank]
        omega
      | none =>
        cases hf1 : firstIdxLt ms t1 with
        | some i =>
          obtain ⟨m, hm⟩ := (firstIdxLt_mono ms t1 t2 h).2 i hf1
          have hlen : i < ms.length := by
            by_contra hge
            rw [List.getElem?_eq_none (by omega)] at hm
            cases hm
          simp only [classRank]
          omega
        | none => simp [classRank]

/-- Witness for C2 at `nb = 0`, cutoffs 10 < 20, timestamps 3 ≤ 12:
bucket 0 is ranked below bucket 1. -/
theorem claim_C2_witness :
    classRank wMilestones.length (classify 0 wMilestones 3) ≤
      classRank wMilestones.length (classify 0 wMilestones 12) :=
  claim_C2_classify_monotone 0 wMilestones (by simp [wMilestones]) 3 12 (by decide)

/-- C3: with strictly increasing milestone cutoffs, an item timestamped `t`
is recorded in exactly the first milestone bucket whose cutoff exceeds `t`
when `not-before ≤ t < last cutoff` (parts 1-2: the milestone search
returns the first index with `t` below its cutoff, such an index exists,
and the milestone loop applies its mutation at exactly that index); an
item with `t <` not-before is recorded in no bucket (parts 4-5: the page
processor stops with the state unchanged, for both fetchers); and an item
with `t ≥` the last cutoff is recorded in no bucket (part 3: the search
fails and the loop leaves the snapshot unchanged); part 6 pins down that
`modifyIdx` touches only the selected index. -/
theorem claim_C3_first_bucket (nb t : Int) (ms : List Milestone)
    (hinc : List.Chain' (· < ·) (ms.map (·.cutoff))) :
    (∀ i, firstIdxLt ms t = some i →
      (∃ m, ms[i]? = some m ∧ t < m.cutoff) ∧
      (∀ j, j < i → ∃ m, ms[j]? = some m ∧ m.cutoff ≤ t) ∧
      (∀ (σ : Type) (add : Nat → σ → σ) (s : σ), addByMs ms 0 t add s = add i s)) ∧
    (∀ ml, ms.getLast? = some ml → nb ≤ t → t < ml.cutoff →
      ∃ i, firstIdxLt ms t = some i) ∧
    (∀ ml, ms.getLast? = some ml → ml.cutoff ≤ t →
      firstIdxLt ms t = none ∧
      ∀ (σ : Type) (add : Nat → σ → σ) (s : σ), addByMs ms 0 t add s = s) ∧
    (∀ (mappings : List (String × String)) (fd : String → DiffStat)
       (st : HarvestState) (c : CommitItem) (rest : List CommitItem),
      c.date < nb →
      processPage (fun x => decide (x.date < nb)) (processCommitStep mappings fd ms)
        st (c :: rest) = (st, true)) ∧
    (∀ (mappings : List (String × String)) (fd : String → DiffStat)
       (st : HarvestState) (it : IssueItem) (rest : List IssueItem),
      it.created < nb →
      processPage (fun x => decide (x.created < nb)) (processIssueStep mappings fd ms)
        st (it :: rest) = (st, true)) ∧
    (∀ (σ : Type) (l : List σ) (i : Nat) (f : σ → σ) (j : Nat),
      (modifyIdx l i f)[j]? = if j = i then (l[j]?).map f else l[j]?) := by
  refine ⟨?_, ?_, ?_, ?_, ?_, ?_⟩
  · intro i hi
    refine ⟨firstIdxLt_some_getElem ms t i hi, firstIdxLt_some_first ms t i hi, ?_⟩
    intro σ add s
    rw [addByMs_eq, hi]
    simp
  · intro ml hml hnb hlt
    cases hf : firstIdxLt ms t with
    | some i => exact ⟨i, rfl⟩
    | none =>
      have hall := (firstIdxLt_none_iff ms t).mp hf
      have hmem := getLast?_mem_milestones ms ml hml
      exact absurd hlt (not_lt.mpr (hall ml hmem))
  · intro ml hml hge
    have hnone : firstIdxLt ms t = none := by
      rw [firstIdxLt_none_iff]
      intro m hm
      exact le_trans (cutoff_le_getLast ms hinc ml hml m hm) hge
    refine ⟨hnone, ?_⟩
    intro σ add s
    rw [addByMs_eq, hnone]
  · intro mappings fd st c rest h
    simp [processPage, h]
  · intro mappings fd st it rest h
    simp [processPage, h]
  · intro σ l i f j
    exact modifyIdx_getElem l i f j

/-- Witness for C3: with cutoffs 10 < 20 and `t = 12`, the search selects
index 1 and the milestone loop applies its mutation at index 1. -/
theorem claim_C3_witness :
    (∃ m, wMilestones[1]? = some m ∧ (12 : Int) < m.cutoff) ∧
    addByMs wMilestones 0 12 (fun i s => s ++ [i]) ([] : List Nat) = [] ++ [1] :=
  ⟨((claim_C3_first_bucket 0 12 wMilestones (by simp [wMilestones])).1 1 (by decide)).1,
   ((claim_C3_first_bucket 0 12 wMilestones (by simp [wMilestones])).1 1
      (by decide)).2.2 (List Nat) (fun i s => s ++ [i]) []⟩

/-- C5: finalization is idempotent: applying `finalize_repo_data`
(per-bucket per-kind stable sort of each author's record list by date
ascending, then reordering of each author-keyed mapping by identity
string ascending) twice yields the same snapshot as applying it once,
for every snapshot. -/
theorem claim_C5_finalize_idempotent (msl : List MsBucket) :
    finalize_repo_data (finalize_repo_data msl) = finalize_repo_data msl := by
  unfold finalize_repo_data
  simp only [List.map_map]
  apply List.map_congr_left
  intro mb _
  exact finalizeMB_idem mb

/-- C10: the identity list credited for a commit is the concatenation of
its Co-authored-by trailer names and its resolved primary author, without
deduplication; running the author loop adds one record and one count
increment per occurrence of an identity in that list, so an identity
appearing `k` times (for example a trailer naming the primary author)
receives `k` records for the single commit. -/
theorem claim_C10_coauthor_fanout (mappings : List (String × String)) (r : CommitEntry)
    (c : CommitItem) (m : List (String × AuthorBucket CommitEntry)) (x : String) :
    commitNames c = c.coauthors ++ [resolveAuthor c] ∧
    (commitNames c).count x =
      c.coauthors.count x + (if x = resolveAuthor c then 1 else 0) ∧
    alookup (addAuthorsCommit mappings r (commitNames c) m) x =
      (match alookup m x with
       | some b => some { b with
           count := b.count + (commitNames c).count x,
           list := b.list ++ List.replicate ((commitNames c).count x) r }
       | none =>
         if (commitNames c).count x = 0 then none
         else some {
           count := (commitNames c).count x,
           list := List.replicate ((commitNames c).count x) r,
           full_name := get_full_name x mappings }) := by
  refine ⟨rfl, ?_, alookup_addAuthorsCommit mappings r (commitNames c) m x⟩
  unfold commitNames
  rw [List.count_append]
  by_cases hx : x = resolveAuthor c
  · simp [List.count_cons, hx]
  · have hx' : ¬ resolveAuthor c = x := fun h => hx h.symm
    simp [List.count_cons, hx, hx']

/-- C1: for both paginated fetchers, if the pages before page `k` are
nonempty and contain no item below the not-before cutoff, and page `k`
splits as `a ++ b :: c` with everything in `a` at or after the cutoff and
`b` below it, then the run processes exactly the items of the earlier
pages followed by `a` (so `b` and the items after it are never processed),
persists one snapshot per requested page with the last persist taken after
the partial page, and requests exactly `k` pages — never page `k + 1`. -/
theorem claim_C1_early_termination :
    (∀ (mappings : List (String × String)) (fd : String → DiffStat) (nb : Int)
       (ms : List Milestone) (pre : List (List CommitItem)) (a : List CommitItem)
       (b : CommitItem) (c : List CommitItem) (rest : List (PageResult CommitItem))
       (st : HarvestState),
      (∀ p ∈ pre, p ≠ [] ∧ ∀ x ∈ p, ¬ x.date < nb) →
      (∀ x ∈ a, ¬ x.date < nb) → b.date < nb →
      gather_commits mappings fd nb ms
          (pre.map PageResult.content ++ PageResult.content (a ++ b :: c) :: rest) st =
        ((pre.flatten ++ a).foldl (processCommitStep mappings fd ms) st,
         (pageStates (processCommitStep mappings fd ms) st (pre ++ [a])).map
           (fun s => s.msl),
         pre.length + 1)) ∧
    (∀ (mappings : List (String × String)) (fd : String → DiffStat) (nb : Int)
       (ms : List Milestone) (pre : List (List IssueItem)) (a : List IssueItem)
       (b : IssueItem) (c : List IssueItem) (rest : List (PageResult IssueItem))
       (st : HarvestState),
      (∀ p ∈ pre, p ≠ [] ∧ ∀ x ∈ p, ¬ x.created < nb) →
      (∀ x ∈ a, ¬ x.created < nb) → b.created < nb →
      gather_issues_and_prs mappings fd nb ms
          (pre.map PageResult.content ++ PageResult.content (a ++ b :: c) :: rest) st =
        ((pre.flatten ++ a).foldl (processIssueStep mappings fd ms) st,
         (pageStates (processIssueStep mappings fd ms) st (pre ++ [a])).map
           (fun s => s.msl),
         pre.length + 1)) := by
  constructor
  · intro mappings fd nb ms pre a b c rest st hpre ha hb
    exact fetchPages_early (fun x : CommitItem => decide (x.date < nb))
      (processCommitStep mappings fd ms) (fun s => s.msl) pre a b c rest st
      (fun p hp => ⟨(hpre p hp).1, fun x hx => decide_eq_false ((hpre p hp).2 x hx)⟩)
      (fun x hx => decide_eq_false (ha x hx))
      (decide_eq_true hb)
  · intro mappings fd nb ms pre a b c rest st hpre ha hb
    exact fetchPages_early (fun x : IssueItem => decide (x.created < nb))
      (processIssueStep mappings fd ms) (fun s => s.msl) pre a b c rest st
      (fun p hp => ⟨(hpre p hp).1, fun x hx => decide_eq_false ((hpre p hp).2 x hx)⟩)
      (fun x hx => decide_eq_false (ha x hx))
      (decide_eq_true hb)

/-- Witness for C1: a three-page feed (for each fetcher) whose second page
starts with a below-cutoff item: page 1 is processed, the second page
contributes nothing, page 3 is never requested (2 pages requested). -/
theorem claim_C1_witness :
    (gather_commits [] sampleFetch 0 []
        ([[wCommitA]].map PageResult.content ++
          PageResult.content ([] ++ wCommitOld :: [wCommitOld2]) ::
            [PageResult.content [wCommitA]]) (initialState []) =
      (([[wCommitA]].flatten ++ []).foldl (processCommitStep [] sampleFetch [])
         (initialState []),
       (pageStates (processCommitStep [] sampleFetch []) (initialState [])
         ([[wCommitA]] ++ [[]])).map (fun s => s.msl),
       [[wCommitA]].length + 1)) ∧
    (gather_issues_and_prs [] sampleFetch 0 []
        ([[wIssueA]].map PageResult.content ++
          PageResult.content ([] ++ wIssueOld :: [wIssueOld2]) ::
            [PageResult.content [wIssueA]]) (initialState []) =
      (([[wIssueA]].flatten ++ []).foldl (processIssueStep [] sampleFetch [])
         (initialState []),
       (pageStates (processIssueStep [] sampleFetch []) (initialState [])
         ([[wIssueA]] ++ [[]])).map (fun s => s.msl),
       [[wIssueA]].length + 1)) :=
  ⟨claim_C1_early_termination.1 [] sampleFetch 0 [] [[wCommitA]] [] wCommitOld
      [wCommitOld2] [PageResult.content [wCommitA]] (initialState [])
      (by decide) (by decide) (by decide),
   claim_C1_early_termination.2 [] sampleFetch 0 [] [[wIssueA]] [] wIssueOld
      [wIssueOld2] [PageResult.content [wIssueA]] (initialState [])
      (by decide) (by decide) (by decide)⟩

/-- C4: the count invariant `count = length(list)` holds after every
mutation and in every persisted and final snapshot: part 1, the single
bucket mutation preserves it; parts 2-3, each item-processing step of the
two fetchers preserves it for the whole snapshot; part 4, every snapshot
written during a repository's harvest — the per-page persists of both
phases and the finalized snapshot — satisfies it. -/
theorem claim_C4_count_invariant :
    (∀ (α : Type) (m : List (String × AuthorBucket α)) (a fn : String) (r : α),
      bucketInvMap m → bucketInvMap (bucketAdd m a fn r)) ∧
    (∀ (mappings : List (String × String)) (fd : String → DiffStat)
       (ms : List Milestone) (st : HarvestState) (c : CommitItem),
      snapInv st.msl → snapInv (processCommitStep mappings fd ms st c).msl) ∧
    (∀ (mappings : List (String × String)) (fd : String → DiffStat)
       (ms : List Milestone) (st : HarvestState) (it : IssueItem),
      snapInv st.msl → snapInv (processIssueStep mappings fd ms st it).msl) ∧
    (∀ (mappings : List (String × String)) (nb : Int) (ms : List Milestone)
       (env : RepoEnv), ∀ snap ∈ harvestRepo mappings nb ms env, snapInv snap) :=
  ⟨fun _ m a fn r h => bucketAdd_inv m a fn r h,
   fun mappings fd ms st c h => processCommitStep_inv mappings fd ms st c h,
   fun mappings fd ms st it h => processIssueStep_inv mappings fd ms st it h,
   fun mappings nb ms env => harvestRepo_inv mappings nb ms env⟩

/-- Witness for C4: adding a record to an empty mapping yields a mapping
satisfying the count invariant. -/
theorem claim_C4_witness :
    bucketInvMap (bucketAdd ([] : List (String × AuthorBucket CommitEntry)) "alice" "Alice"
      { message := "m", date := "d", link := "l", diffFiles := 0, diffTotal := 0 }) :=
  claim_C4_count_invariant.1 CommitEntry [] "alice" "Alice"
    { message := "m", date := "d", link := "l", diffFiles := 0, diffTotal := 0 }
    (by decide)

/-- C9: a repository whose metadata existence check returns 404 is
skipped: processing the repository list with it inserted equals processing
the list without it (so it produces no write events and processing
continues with the remaining repositories), and processing it alone
produces no writes and no abort. -/
theorem claim_C9_skip_on_missing (mappings : List (String × String)) (nb : Int)
    (ms : List Milestone) (before after : List (String × String × RepoEnv))
    (owner repo : String) (env : RepoEnv) (h : env.meta = .notFound) :
    process_repos mappings nb ms (before ++ (owner, repo, env) :: after) =
      process_repos mappings nb ms (before ++ after) ∧
    process_repos mappings nb ms [(owner, repo, env)] = ([], false) := by
  constructor
  · induction before with
    | nil => simp [process_repos, h]
    | cons p rest ih =>
      obtain ⟨o2, r2, e2⟩ := p
      cases he : e2.meta <;> simp [process_repos, he, ih]
  · simp [process_repos, h]

/-- Witness for C9: inserting a 404 repository between two accessible
repositories changes nothing, and harvesting it alone writes nothing. -/
theorem claim_C9_witness :
    process_repos [] 0 []
        ([("u", "r0", wEnvOk)] ++ ("u", "rNF", wEnvNF) :: [("u", "r2", wEnvOk)]) =
      process_repos [] 0 [] ([("u", "r0", wEnvOk)] ++ [("u", "r2", wEnvOk)]) ∧
    process_repos [] 0 [] [("u", "rNF", wEnvNF)] = ([], false) :=
  claim_C9_skip_on_missing [] 0 [] [("u", "r0", wEnvOk)] [("u", "r2", wEnvOk)]
    "u" "rNF" wEnvNF rfl

/-- Counterexample to C8 as stated: a non-404 error status from the
metadata existence check of the first repository makes `raise_for_status`
raise with no enclosing handler (`gather.py` line 235, and line 600 in
`main`), aborting the whole run: the second repository is never harvested
(no events at all), although processed alone it would produce its write. -/
theorem claim_C8_counterexample :
    (process_repos [] 0 [] [("u", "r1", wEnvErr), ("u", "r2", wEnvOk)]).2 = true ∧
    (process_repos [] 0 [] [("u", "r1", wEnvErr), ("u", "r2", wEnvOk)]).1 = [] ∧
    process_repos [] 0 [] [("u", "r2", wEnvOk)] =
      ([Event.write "u" "r2" []], false) :=
  ⟨rfl, rfl, rfl⟩

/-- C8 amended: the orchestrator survives skipped (404) repositories and
all harvesting-internal errors (failed page fetches stop only that
resource's pagination — they are ordinary `PageResult.fetchError` inputs
below), processing every accessible repository in input order; but a
non-404 error from the metadata check aborts the entire run, so the
no-abort guarantee holds exactly when no repository's metadata check
returns such an error. -/
theorem claim_C8_amended (mappings : List (String × String)) (nb : Int)
    (ms : List Milestone) (repos : List (String × String × RepoEnv))
    (h : ∀ e ∈ repos, e.2.2.meta ≠ .httpError) :
    process_repos mappings nb ms repos =
      (((repos.filter (fun e => decide (e.2.2.meta = MetaResult.ok))).map
          (fun e => (harvestRepo mappings nb ms e.2.2).map (Event.write e.1 e.2.1))).flatten,
       false) := by
  induction repos with
  | nil => simp [process_repos]
  | cons p rest ih =>
    obtain ⟨o2, r2, e2⟩ := p
    have hrest := ih (fun e he => h e (List.mem_cons_of_mem _ he))
    cases he : e2.meta with
    | notFound => simp [process_repos, he, hrest]
    | httpError =>
      exact absurd he (h (o2, r2, e2) (List.mem_cons_self _ _))
    | ok => simp [process_repos, he, hrest]

/-- Witness for C8 amended: a run over one accessible and one missing
repository performs exactly the accessible repository's writes and does
not abort. -/
theorem claim_C8_witness :
    process_repos [] 0 [] [("u", "r2", wEnvOk), ("u", "r3", wEnvNF)] =
      ((([("u", "r2", wEnvOk), ("u", "r3", wEnvNF)].filter
          (fun e => decide (e.2.2.meta = MetaResult.ok))).map
          (fun e => (harvestRepo [] 0 [] e.2.2).map (Event.write e.1 e.2.1))).flatten,
       false) :=
  claim_C8_amended [] 0 [] [("u", "r2", wEnvOk), ("u", "r3", wEnvNF)] (by decide)

/-- Counterexample to C6 as stated: the commit-feed path of
`gather_commits` (`gather.py` lines 315-318) calls `get_diff`
unconditionally — it stores into `prev_diffs` but never consults it — so
a sha appearing twice in the commit feed triggers two remote diff
lookups, refuting "at most one remote diff lookup per SHA no matter how
many times that SHA is encountered". Here the feed is one page holding
two commits with sha `"s"`. -/
theorem claim_C6_counterexample :
    ¬ ((harvestStates [] 0 [] wEnvDup).1.calls.count "s" ≤ 1) := by
  decide

/-- C6 amended: the commit-feed path performs one remote diff lookup per
processed commit item, even for a repeated sha (part 1: each step appends
exactly its sha to the call trace); across the whole issue/PR phase at
most one remote lookup per sha is performed, and none at all for a sha
already cached by the commit phase (part 2); and every cached DiffStat is
identical to the remote's diff for that sha, so all cache hits return the
value the single lookup fetched (part 3). -/
theorem claim_C6_diff_cache :
    (∀ (mappings : List (String × String)) (fd : String → DiffStat)
       (ms : List Milestone) (st : HarvestState) (c : CommitItem),
      (processCommitStep mappings fd ms st c).calls = st.calls ++ [c.sha]) ∧
    (∀ (mappings : List (String × String)) (nb : Int) (ms : List Milestone)
       (env : RepoEnv) (sha : String),
      ∃ d, (harvestStates mappings nb ms env).2.calls =
          (harvestStates mappings nb ms env).1.calls ++ d ∧
        d.count sha ≤ 1 ∧
        (alookup (harvestStates mappings nb ms env).1.cache sha ≠ none →
          d.count sha = 0)) ∧
    (∀ (mappings : List (String × String)) (nb : Int) (ms : List Milestone)
       (env : RepoEnv) (s : String) (e : DiffStat),
      alookup (harvestStates mappings nb ms env).2.cache s = some e →
        e = env.fetchDiff s) := by
  refine ⟨?_, ?_, ?_⟩
  · intro mappings fd ms st c
    rfl
  · intro mappings nb ms env sha
    have hinv : CallsInv (harvestStates mappings nb ms env).1
        (harvestStates mappings nb ms env).2 := by
      exact (fetchPages_inv (fun it : IssueItem => decide (it.created < nb))
        (processIssueStep mappings env.fetchDiff ms) (fun s => s.msl)
        (CallsInv (harvestStates mappings nb ms env).1) (fun _ => True)
        (fun s it hs =>
          CallsInv_step mappings env.fetchDiff ms (harvestStates mappings nb ms env).1 s it hs)
        (fun _ _ => trivial) env.issuePages (harvestStates mappings nb ms env).1
        (CallsInv_refl (harvestStates mappings nb ms env).1)).1
    obtain ⟨d, h1, h2, h3, _, _⟩ := hinv
    refine ⟨d, h1, List.nodup_iff_count_le_one.mp h2 sha, ?_⟩
    intro hne
    rw [List.count_eq_zero]
    intro hmem
    exact hne (h3 sha hmem)
  · intro mappings nb ms env s e he
    have h0 : CacheSound env.fetchDiff (initialState ms) := by
      intro s' e' h'
      simp [initialState, alookup] at h'
    have h1 := (fetchPages_inv (fun c : CommitItem => decide (c.date < nb))
      (processCommitStep mappings env.fetchDiff ms) (fun s => s.msl)
      (CacheSound env.fetchDiff) (fun _ => True)
      (fun s' c hs => CacheSound_commitStep mappings env.fetchDiff ms s' c hs)
      (fun _ _ => trivial) env.commitPages (initialState ms) h0).1
    have h2 := (fetchPages_inv (fun it : IssueItem => decide (it.created < nb))
      (processIssueStep mappings env.fetchDiff ms) (fun s => s.msl)
      (CacheSound env.fetchDiff) (fun _ => True)
      (fun s' it hs => CacheSound_issueStep mappings env.fetchDiff ms s' it hs)
      (fun _ _ => trivial) env.issuePages
      (gather_commits mappings env.fetchDiff nb ms env.commitPages (initialState ms)).1
      h1).1
    exact h2 s e he

/-- Witness for C6 amended: for a feed with one commit of sha `"sa"`, the
issue/PR phase makes at most one (here zero) further lookup of `"sa"`,
and the cached value is the remote's diff. -/
theorem claim_C6_witness :
    (∃ d, (harvestStates [] 0 [] wEnvOne).2.calls =
        (harvestStates [] 0 [] wEnvOne).1.calls ++ d ∧
      d.count "sa" ≤ 1 ∧
      (alookup (harvestStates [] 0 [] wEnvOne).1.cache "sa" ≠ none →
        d.count "sa" = 0)) ∧
    { filenames := [], total := 0 : DiffStat } = wEnvOne.fetchDiff "sa" :=
  ⟨claim_C6_diff_cache.2.1 [] 0 [] wEnvOne "sa",
   claim_C6_diff_cache.2.2 [] 0 [] wEnvOne "sa"
     { filenames := [], total := 0 } (by decide)⟩

/-- Counterexample to C7 as stated: a response that parses as JSON but
lacks the expected `'files'`/`'stats'` fields raises a `KeyError` that the
`except (RequestException, JSONDecodeError)` clause of `gather.py`
line 33 does not catch, so the failure propagates to the caller instead
of being retried or converted to the empty result. -/
theorem claim_C7_counterexample :
    (get_diff (fun _ => DiffAttempt.badShape) 3).1 = GetDiffResult.raised := by
  rfl

/-- C7 amended: for attempt outcomes limited to the caught transient
failures (network/server error surfaced as `RequestException`, JSON
decode failure) and successes, `get_diff` never raises (part 1); when all
3 attempts fail with caught errors it returns the empty/zero DiffStat
after sleeping `2^0` and `2^1` between attempts (part 2); and when the
first success comes at attempt `k` after caught failures it returns that
body's stats after sleeping `2^0 … 2^(k-1)` (part 3). A body that parses
as JSON but lacks the expected fields, however, raises an uncaught error
(see the counterexample). -/
theorem claim_C7_retry_and_empty (res : Nat → DiffAttempt) :
    ((∀ i, i < 3 → res i ≠ .badShape) → (get_diff res 3).1 ≠ .raised) ∧
    ((∀ i, i < 3 → caughtAttempt (res i) = true) →
      get_diff res 3 = (.ok { filenames := [], total := 0 }, [1, 2])) ∧
    (∀ k, k < 3 → (∀ i, i < k → caughtAttempt (res i) = true) →
      ∀ fns total, res k = .ok fns total →
        get_diff res 3 = (.ok { filenames := fns.eraseDups, total := total },
          (List.range k).map (fun i => 2 ^ i))) := by
  refine ⟨?_, ?_, ?_⟩
  · intro h
    exact get_diff_loop_no_raise res 3 h 3 0 (by omega)
  · intro h
    unfold get_diff
    rw [get_diff_loop_succ_caught res 3 0 2 (by omega) (h 0 (by omega))]
    rw [get_diff_loop_succ_caught res 3 1 1 (by omega) (h 1 (by omega))]
    rw [get_diff_loop_last_caught res 3 2 0 (by omega) (h 2 (by omega))]
    rfl
  · intro k hk hprev fns total hres
    interval_cases k
    · unfold get_diff
      rw [get_diff_loop_ok res 3 0 2 fns total hres]
      rfl
    · unfold get_diff
      rw [get_diff_loop_succ_caught res 3 0 2 (by omega) (hprev 0 (by omega))]
      rw [get_diff_loop_ok res 3 1 1 fns total hres]
      rfl
    · unfold get_diff
      rw [get_diff_loop_succ_caught res 3 0 2 (by omega) (hprev 0 (by omega))]
      rw [get_diff_loop_succ_caught res 3 1 1 (by omega) (hprev 1 (by omega))]
      rw [get_diff_loop_ok res 3 2 0 fns total hres]
      rfl

/-- Witness for C7 amended: with every attempt failing as a network
error, `get_diff` does not raise and returns the empty/zero DiffStat
after backoff delays `[1, 2]`. -/
theorem claim_C7_witness :
    ((get_diff (fun _ => DiffAttempt.netError) 3).1 ≠ GetDiffResult.raised) ∧
    get_diff (fun _ => DiffAttempt.netError) 3 =
      (GetDiffResult.ok { filenames := [], total := 0 }, [1, 2]) :=
  ⟨(claim_C7_retry_and_empty (fun _ => DiffAttempt.netError)).1 (by decide),
   (claim_C7_retry_and_empty (fun _ => DiffAttempt.netError)).2.1 (by decide)⟩
